import Mathlib

/-!
Verification of the JIT stack/locals caching layer of `DMCompiler.h`
(byond-extools, `dmjit` namespace).

The embedding models the compile-time state the header manipulates:

* `Operand`  — an asmjit operand: default-constructed ("none"), an
  immediate (`Imm`), or a virtual register identified by its index.
* `Variable` — the source's `struct Variable { Operand Type; Operand Value; }`.
* `Local`    — the source's `struct Local { CacheState State; Variable Variable; }`.
* `EmitState` — the code-generation collaborator: a counter of fresh
  virtual registers, a counter of fresh labels, and the list of emitted
  instruction-stream entries (`mov reg, [base + disp]` loads, inline
  comments, and the `xor` used for iterator reset).
* `BlockNode` / `ProcNode` — the per-block and per-procedure contexts,
  built exactly as their constructors in the source build them.
* `DMCompiler.popStack` — a direct translation of the templated
  `popStack<I>` member function, including its two loops, its
  `__debugbreak()` on a null current block and its `abort()` underflow
  path.

Machine-value layout: the external `Value` struct (4-byte type tag
followed by a 4-byte payload) is not part of this repository's sources;
per the spec, slots are `sizeof(Value)`-strided with the payload
sub-word at a fixed offset, so `sizeof(Value) = 8` and
`offsetof(Value, value) = 4` are used as in the shipped BYOND layout.

The memory-resident stack that the emitted loads would read at run time
is modelled as a function `mem : Int → Variable` from slot indices to
the (symbolic) value stored in the slot; slot `j` starts at byte
displacement `j * 8` from the block's `_stack_top` register, so the
type tag of slot `j` is the word at displacement `j * 8` and its
payload the word at `j * 8 + 4`.  A fallback load of slot `j` yields
`mem j` in the result array, while the two emitted `mov`s (with their
fresh destination registers and their byte displacements) are recorded
in the instruction stream.

The cache `_stack` is a `ZoneVector` that appends and pops at its end;
it is modelled as a `List Variable` whose HEAD is the most recently
appended entry (the reverse of the vector's storage order), so
`ZoneVector::pop` is `head`/`tail` here.
-/

namespace DmJit

/-- An asmjit operand: none (default constructed), an immediate, or a
virtual register (identified by its allocation index). -/
inductive Operand where
  | opNone : Operand
  | imm (n : Nat) : Operand
  | reg (id : Nat) : Operand
deriving DecidableEq, Repr

/-- `struct Variable { Operand Type; Operand Value; }` — reference to a
DM variable through operands. -/
structure Variable where
  type : Operand
  value : Operand
deriving DecidableEq, Repr

/-- A default-constructed `Variable` (both operands none), as produced by
`std::array<Variable, I> res;` before the loops fill it. -/
def Variable.uninit : Variable := ⟨Operand.opNone, Operand.opNone⟩

/-- `Local::CacheState`. -/
inductive CacheState where
  | Ok : CacheState
  | Stale : CacheState
  | Modified : CacheState
deriving DecidableEq, Repr

/-- `struct Local { CacheState State; Variable Variable; }`. -/
structure Local where
  State : CacheState
  Var : Variable
deriving DecidableEq, Repr

/-- Modelled from the spec: the numeric tag `DataType::NULL_D` of the
external tagged-value encoding (`core.h` is not part of this
repository's sources); the spec only requires a distinguished NULL
tag. -/
def NULL_D : Nat := 0

/-- `sizeof(Value)` of the external two-sub-word tagged value: 4-byte
type tag followed by a 4-byte payload. -/
def sizeofValue : Nat := 8

/-- `offsetof(Value, value)`: byte offset of the payload sub-word. -/
def offsetofValueValue : Nat := 4

/-- An entry of the emitted instruction stream, as far as this layer
produces them: a 32-bit load `mov dst, [base + disp]`, an inline
comment, or a register-zeroing `xor`. -/
inductive Instr where
  | movLoad (dst : Nat) (base : Nat) (disp : Int) : Instr
  | comment (s : String) : Instr
  | xorRegReg (a b : Nat) : Instr
deriving DecidableEq, Repr

/-- The state of the code-generation collaborator: fresh virtual
register counter, fresh label counter, emitted instruction stream. -/
structure EmitState where
  nextReg : Nat
  nextLabel : Nat
  instrs : List Instr
deriving DecidableEq, Repr

/-- `newUInt32()` / `newUIntPtr()`: allocate a fresh virtual register. -/
def EmitState.newReg (st : EmitState) : Nat × EmitState :=
  (st.nextReg, { st with nextReg := st.nextReg + 1 })

/-- `newLabel()`: allocate a fresh label. -/
def EmitState.newLabel (st : EmitState) : Nat × EmitState :=
  (st.nextLabel, { st with nextLabel := st.nextLabel + 1 })

/-- `setInlineComment(..)`: record a comment in the emission stream. -/
def EmitState.setInlineComment (st : EmitState) (s : String) : EmitState :=
  { st with instrs := st.instrs ++ [Instr.comment s] }

/-- `BlockNode`: the per-basic-block context.  `stack` is the cache
`_stack` (head = most recently appended entry), `stack_top` the virtual
register `_stack_top` holding the address of the top of the
memory-resident stack, `stack_top_offset` the signed drift
`_stack_top_offset`. -/
structure BlockNode where
  label : Nat
  stack_top : Nat
  stack_top_offset : Int
  stack : List Variable
deriving DecidableEq, Repr

/-- `BlockNode::BlockNode(cb, label)`: member initializers set
`_label`, `_stack_top_offset(0)`; the body allocates a fresh
`_stack_top` register; `_stack` is default-initialized empty.  (The
created `BlockEndNode` carries no state used by this layer.) -/
def BlockNode.make (label : Nat) (st : EmitState) : BlockNode × EmitState :=
  let r := st.newReg
  (⟨label, r.1, 0, []⟩, r.2)

/-- `Local default_local {Local::CacheState::Modified, {Imm(DataType::NULL_D), Imm(0)}};` -/
def default_local : Local :=
  ⟨CacheState.Modified, ⟨Operand.imm NULL_D, Operand.imm 0⟩⟩

/-- `ProcNode`: the per-procedure context. -/
structure ProcNode where
  jit_context : Nat
  stack_frame : Nat
  current_iterator : Nat
  entryPoint : Nat
  prolog : Nat
  continuationPoints : List Nat
  locals : List Local
  locals_count : Nat
  args : List Local
  args_count : Nat
deriving DecidableEq, Repr

/-- `ProcNode::ProcNode(cb, locals_count, args_count)`: allocates the
`_jit_context`, `_stack_frame` and `_current_iterator` registers and the
entry/prolog labels, fills the freshly allocated `_locals` and `_args`
arrays with `default_local` (the init loops), zeroes the iterator
register with `xor`, and resets the continuation-point list. -/
def ProcNode.make (locals_count args_count : Nat) (st : EmitState) :
    ProcNode × EmitState :=
  let jc := st.newReg
  let sf := jc.2.newReg
  let it := sf.2.newReg
  let ep := it.2.newLabel
  let pl := ep.2.newLabel
  let st1 := { pl.2 with instrs := pl.2.instrs ++ [Instr.xorRegReg it.1 it.1] }
  (⟨jc.1, sf.1, it.1, ep.1, pl.1, [],
    List.replicate locals_count default_local, locals_count,
    List.replicate args_count default_local, args_count⟩, st1)

/-- The compiler object: emission state plus the implicit current
procedure/block context pointers. -/
structure DMCompiler where
  emit : EmitState
  currentProc : Option ProcNode
  currentBlock : Option BlockNode
deriving DecidableEq, Repr

/-- Outcome of `popStack<I>`: a normal return carrying the result array
and the updated compiler, the `Core::Alert`+`abort()` stack-underflow
exit carrying the compiler state reached at the abort, or the
`__debugbreak()` trap taken when `_currentBlock == nullptr`. -/
inductive PopResult where
  | ok (res : List Variable) (c : DMCompiler) : PopResult
  | underflow (c : DMCompiler) : PopResult
  | nullBlock : PopResult
deriving DecidableEq, Repr

/-- The first loop of `popStack<I>`:
`for (; popped_count < I && !block._stack.empty(); popped_count++)
   res[I - popped_count - 1] = block._stack.pop();`
(the vector pops at its end, i.e. at the head of our list). -/
def popCacheLoop (I : Nat) :
    List Variable → List Variable → Nat → List Variable × List Variable × Nat
  | res, [], pc => (res, [], pc)
  | res, v :: rest, pc =>
    if pc < I then
      popCacheLoop I (res.set (I - pc - 1) v) rest (pc + 1)
    else
      (res, v :: rest, pc)

/-- The second loop of `popStack<I>`, fallback reads from the
memory-resident stack:
`for (; popped_count < I && _currentBlock->_stack_top_offset - popped_count >= 0; popped_count++)`
allocating two fresh 32-bit registers and emitting
`mov(type,  ptr(stack_top, (off - popped_count) * sizeof(Value) - sizeof(Value)))` and
`mov(value, ptr(stack_top, (off - popped_count) * sizeof(Value) - offsetof(Value, value)))`,
then `res[I - popped_count - 1] = { type, value }`.  The loaded slot is
`off - popped_count - 1`, whose symbolic contents are `mem` applied to
it.  `fuel` is a purely technical structural-recursion bound; it is
passed as `I - pc`, which the loop guard `pc < I` can never outrun. -/
def popMemLoopF (mem : Int → Variable) (top : Nat) (off : Int) (I : Nat) :
    Nat → List Variable → Nat → EmitState → List Variable × Nat × EmitState
  | 0, res, pc, st => (res, pc, st)
  | fuel + 1, res, pc, st =>
    if pc < I ∧ 0 ≤ off - (pc : Int) then
      let t := st.newReg
      let v := t.2.newReg
      let st2 := { v.2 with instrs := v.2.instrs ++
        [Instr.movLoad t.1 top ((off - (pc : Int)) * 8 - 8),
         Instr.movLoad v.1 top ((off - (pc : Int)) * 8 - 4)] }
      popMemLoopF mem top off I fuel
        (res.set (I - pc - 1) (mem (off - (pc : Int) - 1))) (pc + 1) st2
    else
      (res, pc, st)

/-- `template<std::size_t I> std::array<Variable, I> popStack()`, the
stack-cache pop with memory fallback, translated loop for loop.
`mem` is the symbolic contents of the memory-resident stack. -/
def DMCompiler.popStack (I : Nat) (mem : Int → Variable) (c : DMCompiler) :
    PopResult :=
  match c.currentBlock with
  | Option.none => PopResult.nullBlock
  | Option.some block =>
    let res0 : List Variable := List.replicate I Variable.uninit
    let r1 := popCacheLoop I res0 block.stack 0
    let res1 := r1.1
    let stk1 := r1.2.1
    let k := r1.2.2
    let block1 : BlockNode :=
      { block with stack := stk1,
                   stack_top_offset := block.stack_top_offset - (k : Int) }
    if k = I then
      PopResult.ok res1 { c with currentBlock := Option.some block1 }
    else
      let diff := I - k
      let st1 := c.emit.setInlineComment "popStack (overpopped)"
      let r2 := popMemLoopF mem block1.stack_top block1.stack_top_offset I
        (I - k) res1 k st1
      let res2 := r2.1
      let pc2 := r2.2.1
      let st2 := r2.2.2
      if pc2 = I then
        PopResult.ok res2
          { c with emit := st2,
                   currentBlock := Option.some
                     { block1 with stack_top_offset :=
                         block1.stack_top_offset - (diff : Int) } }
      else
        PopResult.underflow
          { c with emit := st2, currentBlock := Option.some block1 }

/-- Outcome of the zero-argument `popStack()` overload. -/
inductive PopResult1 where
  | ok (v : Variable) (c : DMCompiler) : PopResult1
  | underflow (c : DMCompiler) : PopResult1
  | nullBlock : PopResult1
deriving DecidableEq, Repr

/-- `Variable popStack() { return popStack<1>()[0]; }` -/
def DMCompiler.popStackOne (mem : Int → Variable) (c : DMCompiler) :
    PopResult1 :=
  match DMCompiler.popStack 1 mem c with
  | PopResult.ok res c1 => PopResult1.ok (res.getD 0 Variable.uninit) c1
  | PopResult.underflow c1 => PopResult1.underflow c1
  | PopResult.nullBlock => PopResult1.nullBlock

/-- Modelled from the spec: `pushStack(Variable)` (declared in the
header, defined outside this repository's sources) — "append to the
cache; increment offset". -/
def BlockNode.pushStack (b : BlockNode) (v : Variable) : BlockNode :=
  { b with stack := v :: b.stack, stack_top_offset := b.stack_top_offset + 1 }

/-- A sequence of pushes, first list element pushed first. -/
def BlockNode.pushMany (b : BlockNode) (vs : List Variable) : BlockNode :=
  vs.foldl BlockNode.pushStack b

/-- Modelled from the spec: `commitStack()` (declared in the header,
defined outside this repository's sources) — "flush every cached entry
still pending against memory to the memory-resident stack at its proper
offset, in order, then clear the cache logically while leaving offset
consistent with the new memory height".  With the cache holding the
topmost `len` logical slots, the entry `i` slots below the cache top is
flushed to slot `stack_top_offset - 1 - i`. -/
def BlockNode.commitStack (b : BlockNode) (mem : Int → Variable) :
    BlockNode × (Int → Variable) :=
  ({ b with stack := [] },
   fun j =>
     if b.stack_top_offset - (b.stack.length : Int) ≤ j ∧ j < b.stack_top_offset
     then b.stack.getD (b.stack_top_offset - 1 - j).toNat Variable.uninit
     else mem j)

/-- The instruction-stream suffix the fallback loop of `popStack<I>`
emits when it runs `fuel` iterations starting at `popped_count = pc`
with fresh-register counter `r`: two loads per iteration, type word
first. -/
def overpopLoads (top : Nat) (off : Int) : Nat → Nat → Nat → List Instr
  | _, _, 0 => []
  | r, pc, fuel + 1 =>
    Instr.movLoad r top ((off - (pc : Int)) * 8 - 8) ::
    Instr.movLoad (r + 1) top ((off - (pc : Int)) * 8 - 4) ::
    overpopLoads top off (r + 2) (pc + 1) fuel

section LoopLemmas

theorem drop_set_self {α : Type} (l : List α) (n : Nat) (a : α)
    (h : n < l.length) : (l.set n a).drop n = a :: l.drop (n + 1) := by
  rw [List.drop_set, if_neg (Nat.lt_irrefl n), Nat.sub_self,
    List.drop_eq_getElem_cons h, List.set_cons_zero]

theorem popCacheLoop_length (I : Nat) :
    ∀ (stk res : List Variable) (pc : Nat),
      (popCacheLoop I res stk pc).1.length = res.length
  | [], _, _ => rfl
  | v :: rest, res, pc => by
    by_cases h : pc < I
    · simp only [popCacheLoop, if_pos h]
      rw [popCacheLoop_length I rest]
      simp
    · simp [popCacheLoop, if_neg h]

theorem popCacheLoop_exact (I : Nat) :
    ∀ (pre rest res : List Variable) (pc : Nat),
      pc + pre.length = I → res.length = I →
      popCacheLoop I res (pre ++ rest) pc =
        (pre.reverse ++ res.drop pre.length, rest, I)
  | [], rest, res, pc, hpc, _ => by
    have hpcI : pc = I := by simpa using hpc
    subst hpcI
    cases rest with
    | nil => simp [popCacheLoop]
    | cons v r => simp [popCacheLoop]
  | v :: pre', rest, res, pc, hpc, hlen => by
    have hpc' : pc + (pre'.length + 1) = I := by
      simpa using hpc
    have hlt : pc < I := by omega
    have hidx : I - pc - 1 = pre'.length := by omega
    simp only [List.cons_append, popCacheLoop, if_pos hlt]
    show popCacheLoop I (res.set (I - pc - 1) v) (pre' ++ rest) (pc + 1) = _
    rw [popCacheLoop_exact I pre' rest (res.set (I - pc - 1) v) (pc + 1)
      (by omega) (by simp [hlen])]
    rw [hidx, drop_set_self res pre'.length v (by omega)]
    simp [List.append_assoc]

theorem popCacheLoop_all (I : Nat) :
    ∀ (stk res : List Variable) (pc : Nat),
      pc + stk.length < I → res.length = I →
      popCacheLoop I res stk pc =
        (res.take (I - pc - stk.length) ++ stk.reverse ++ res.drop (I - pc),
         [], pc + stk.length)
  | [], res, pc, hpc, _ => by
    simp [popCacheLoop]
  | v :: stk', res, pc, hpc, hlen => by
    have hpc' : pc + (stk'.length + 1) < I := by
      simpa using hpc
    have hlt : pc < I := by omega
    have hidx : I - pc - 1 = I - (pc + 1) := by omega
    simp only [popCacheLoop, if_pos hlt]
    rw [popCacheLoop_all I stk' (res.set (I - pc - 1) v) (pc + 1)
      (by omega) (by simp [hlen])]
    have hsetlen : I - pc - 1 < res.length := by omega
    have htake : (res.set (I - pc - 1) v).take (I - (pc + 1) - stk'.length) =
        res.take (I - (pc + 1) - stk'.length) := by
      rw [List.set_take, List.set_eq_of_length_le]
      simp only [List.length_take]
      omega
    have hdrop : (res.set (I - pc - 1) v).drop (I - (pc + 1)) =
        v :: res.drop (I - pc) := by
      rw [← hidx, drop_set_self res (I - pc - 1) v hsetlen,
        show I - pc - 1 + 1 = I - pc from by omega]
    rw [htake, hdrop]
    simp only [Prod.mk.injEq, List.reverse_cons, List.length_cons]
    refine ⟨?_, trivial, by omega⟩
    rw [show I - pc - (stk'.length + 1) = I - (pc + 1) - stk'.length by omega]
    simp [List.append_assoc]

theorem popMemLoopF_length (mem : Int → Variable) (top : Nat) (off : Int)
    (I : Nat) :
    ∀ (fuel : Nat) (res : List Variable) (pc : Nat) (st : EmitState),
      (popMemLoopF mem top off I fuel res pc st).1.length = res.length
  | 0, _, _, _ => rfl
  | fuel + 1, res, pc, st => by
    by_cases h : pc < I ∧ 0 ≤ off - (pc : Int)
    · simp only [popMemLoopF, if_pos h]
      rw [popMemLoopF_length mem top off I fuel]
      simp
    · rw [popMemLoopF, if_neg h]

theorem popMemLoopF_success (mem : Int → Variable) (top : Nat) (off : Int)
    (I : Nat) :
    ∀ (fuel : Nat) (res : List Variable) (pc : Nat) (st : EmitState),
      pc + fuel = I → res.length = I → ((I : Int) - 1) ≤ off →
      popMemLoopF mem top off I fuel res pc st =
        ((List.range fuel).map (fun (p : Nat) => mem (off - (I : Int) + (p : Int))) ++
           res.drop fuel,
         I,
         { st with nextReg := st.nextReg + 2 * fuel,
                   instrs := st.instrs ++ overpopLoads top off st.nextReg pc fuel })
  | 0, res, pc, st, hpc, _, _ => by
    have hpcI : pc = I := by omega
    subst hpcI
    simp [popMemLoopF, overpopLoads]
  | fuel + 1, res, pc, st, hpc, hlen, hoff => by
    have hlt : pc < I := by omega
    have hcast : ((pc : Int)) ≤ (I : Int) - 1 := by
      have h1 : ((pc : Int)) + 1 ≤ (I : Int) := by exact_mod_cast hlt
      omega
    have hguard : pc < I ∧ 0 ≤ off - (pc : Int) := ⟨hlt, by omega⟩
    simp only [popMemLoopF, if_pos hguard, EmitState.newReg]
    rw [popMemLoopF_success mem top off I fuel
      (res.set (I - pc - 1) (mem (off - (pc : Int) - 1))) (pc + 1) _
      (by omega) (by simp [hlen]) hoff]
    have hidx : I - pc - 1 = fuel := by omega
    have hdrop : (res.set (I - pc - 1) (mem (off - (pc : Int) - 1))).drop fuel =
        mem (off - (pc : Int) - 1) :: res.drop (fuel + 1) := by
      rw [hidx, drop_set_self res fuel _ (by omega)]
    simp only [Prod.mk.injEq]
    refine ⟨?_, trivial, ?_⟩
    · rw [hdrop, List.range_succ, List.map_append]
      simp only [List.map_cons, List.map_nil]
      rw [List.append_assoc]
      congr 1
      have hfe : off - (I : Int) + ((fuel : Nat) : Int) = off - (pc : Int) - 1 := by
        have h2 : ((pc : Int)) + ((fuel : Nat) : Int) + 1 = (I : Int) := by
          exact_mod_cast hpc
        omega
      rw [hfe]
      rfl
    · simp only [EmitState.mk.injEq]
      refine ⟨by omega, trivial, ?_⟩
      rw [overpopLoads]
      simp [List.append_assoc]

theorem popMemLoopF_stops (mem : Int → Variable) (top : Nat) (off : Int)
    (I : Nat) :
    ∀ (fuel : Nat) (res : List Variable) (pc : Nat) (st : EmitState),
      pc + fuel = I → pc < I → off < (I : Int) - 1 →
      (popMemLoopF mem top off I fuel res pc st).2.1 < I
  | 0, _, pc, _, hpc, hlt, _ => by omega
  | fuel + 1, res, pc, st, hpc, hlt, hoff => by
    by_cases h : pc < I ∧ 0 ≤ off - (pc : Int)
    · simp only [popMemLoopF, if_pos h]
      by_cases hfin : pc + 1 < I
      · exact popMemLoopF_stops mem top off I fuel _ (pc + 1) _ (by omega) hfin hoff
      · exfalso
        have hpcI : pc = I - 1 := by omega
        have h1 : (pc : Int) ≤ off := by omega
        have h2 : ((pc : Nat) : Int) = (I : Int) - 1 := by
          have h3 : ((pc : Int)) + 1 = (I : Int) := by
            exact_mod_cast (by omega : pc + 1 = I)
          omega
        omega
    · simp only [popMemLoopF, if_neg h]
      exact hlt

end LoopLemmas

section PopStackLemmas

/-- Normalized description of the cache-drain loop of `popStack<I>` when
the cache can satisfy the whole request. -/
theorem popCacheLoop_start_exact (I : Nat) (b : BlockNode)
    (hlen : I <= b.stack.length) :
    popCacheLoop I (List.replicate I Variable.uninit) b.stack 0 =
      ((b.stack.take I).reverse, b.stack.drop I, I) := by
  have htl : (b.stack.take I).length = I := by
    rw [List.length_take]
    omega
  have hc := popCacheLoop_exact I (b.stack.take I) (b.stack.drop I)
      (List.replicate I Variable.uninit) 0 (by simpa using htl) (by simp)
  rw [List.take_append_drop I b.stack] at hc
  rw [hc, htl, List.drop_eq_nil_of_le (by simp), List.append_nil]

/-- Normalized description of the cache-drain loop of `popStack<I>` when
the cache is smaller than the request: everything is drained. -/
theorem popCacheLoop_start_all (I : Nat) (b : BlockNode)
    (hs : b.stack.length < I) :
    popCacheLoop I (List.replicate I Variable.uninit) b.stack 0 =
      (List.replicate (I - b.stack.length) Variable.uninit ++ b.stack.reverse,
       [], b.stack.length) := by
  have hc := popCacheLoop_all I b.stack
      (List.replicate I Variable.uninit) 0 (by simpa using hs) (by simp)
  rw [hc]
  have htake : (List.replicate I Variable.uninit).take (I - 0 - b.stack.length)
      = List.replicate (I - b.stack.length) Variable.uninit := by
    rw [show I = (I - b.stack.length) + b.stack.length from by omega]
    rw [List.replicate_add, List.take_left' (by simp)]
    congr 1
    omega
  rw [htake, List.drop_eq_nil_of_le (by simp), List.append_nil, Nat.zero_add]

/-- `popStack<I>` when the cache alone satisfies the request: the `I`
most recent cache entries are returned in push order, the offset drops
by `I`, nothing is emitted. -/
theorem popStack_cached (I : Nat) (mem : Int -> Variable) (c : DMCompiler)
    (b : BlockNode) (hb : c.currentBlock = Option.some b)
    (hlen : I <= b.stack.length) :
    DMCompiler.popStack I mem c =
      PopResult.ok (b.stack.take I).reverse
        { c with currentBlock := Option.some { b with
            stack := b.stack.drop I,
            stack_top_offset := b.stack_top_offset - (I : Int) } } := by
  simp only [DMCompiler.popStack, hb, popCacheLoop_start_exact I b hlen]
  rfl

/-- `popStack<I>` on the successful overpopped path: all `s` cache
entries are drained first, the remaining `I - s` values are loaded from
memory (slot `b.stack_top_offset - s - popped_count - 1` at iteration
`popped_count`); the returned array is the loaded slots in ascending
slot order followed by the drained cache in push order, the offset
drops by `I` in total, and the emission stream gains the inline comment
plus two loads per fallback iteration. -/
theorem popStack_overpop (I : Nat) (mem : Int -> Variable) (c : DMCompiler)
    (b : BlockNode) (hb : c.currentBlock = Option.some b)
    (hs : b.stack.length < I)
    (hoff : ((I : Int) - 1) <= b.stack_top_offset - (b.stack.length : Int)) :
    DMCompiler.popStack I mem c =
      PopResult.ok
        ((List.range (I - b.stack.length)).map
           (fun (p : Nat) =>
             mem (b.stack_top_offset - (b.stack.length : Int) - (I : Int) + (p : Int))) ++
         b.stack.reverse)
        { c with
          emit := { c.emit with
            nextReg := c.emit.nextReg + 2 * (I - b.stack.length),
            instrs := c.emit.instrs ++ Instr.comment "popStack (overpopped)" ::
              overpopLoads b.stack_top
                (b.stack_top_offset - (b.stack.length : Int))
                c.emit.nextReg b.stack.length (I - b.stack.length) },
          currentBlock := Option.some { b with
            stack := [],
            stack_top_offset := b.stack_top_offset - (I : Int) } } := by
  have hm := popMemLoopF_success mem b.stack_top
      (b.stack_top_offset - (b.stack.length : Int)) I (I - b.stack.length)
      (List.replicate (I - b.stack.length) Variable.uninit ++ b.stack.reverse)
      b.stack.length
      (c.emit.setInlineComment "popStack (overpopped)")
      (by omega) (by simp; omega) hoff
  rw [List.drop_left' (by simp)] at hm
  simp only [DMCompiler.popStack, hb, popCacheLoop_start_all I b hs]
  rw [if_neg (by omega : Not (b.stack.length = I))]
  simp only [hm]
  simp only [if_true, EmitState.setInlineComment, PopResult.ok.injEq,
    DMCompiler.mk.injEq, EmitState.mk.injEq, Option.some.injEq,
    BlockNode.mk.injEq, List.append_assoc, List.singleton_append,
    true_and, and_true]
  omega

/-- `popStack<I>` on the underflow path: the cache is fully drained,
the guard stops the fallback loop before `I` is reached, and the
function aborts with the block left drained and its offset already
decremented by the number of cache entries drained. -/
theorem popStack_underflow_spec (I : Nat) (mem : Int -> Variable)
    (c : DMCompiler) (b : BlockNode) (hb : c.currentBlock = Option.some b)
    (hs : b.stack.length < I)
    (hoff : b.stack_top_offset - (b.stack.length : Int) < (I : Int) - 1) :
    Exists (fun st2 : EmitState =>
      DMCompiler.popStack I mem c =
        PopResult.underflow
          { c with emit := st2,
                   currentBlock := Option.some { b with
                     stack := [],
                     stack_top_offset :=
                       b.stack_top_offset - (b.stack.length : Int) } }) := by
  have hstop := popMemLoopF_stops mem b.stack_top
      (b.stack_top_offset - (b.stack.length : Int)) I (I - b.stack.length)
      (List.replicate (I - b.stack.length) Variable.uninit ++ b.stack.reverse)
      b.stack.length
      (c.emit.setInlineComment "popStack (overpopped)")
      (by omega) hs hoff
  refine ⟨(popMemLoopF mem b.stack_top
      (b.stack_top_offset - (b.stack.length : Int)) I (I - b.stack.length)
      (List.replicate (I - b.stack.length) Variable.uninit ++ b.stack.reverse)
      b.stack.length
      (c.emit.setInlineComment "popStack (overpopped)")).2.2, ?_⟩
  simp only [DMCompiler.popStack, hb, popCacheLoop_start_all I b hs]
  rw [if_neg (by omega : Not (b.stack.length = I))]
  rw [if_neg (by omega : Not ((popMemLoopF mem b.stack_top
      (b.stack_top_offset - (b.stack.length : Int)) I (I - b.stack.length)
      (List.replicate (I - b.stack.length) Variable.uninit ++ b.stack.reverse)
      b.stack.length
      (c.emit.setInlineComment "popStack (overpopped)")).2.1 = I))]

/-- A successful `popStack<I>` returns exactly `I` entries. -/
theorem popStack_ok_length (I : Nat) (mem : Int -> Variable) (c : DMCompiler)
    (res : List Variable) (c1 : DMCompiler)
    (h : DMCompiler.popStack I mem c = PopResult.ok res c1) :
    res.length = I := by
  cases hcb : c.currentBlock with
  | none => simp [DMCompiler.popStack, hcb] at h
  | some block =>
      simp only [DMCompiler.popStack, hcb] at h
      split at h
      . simp only [PopResult.ok.injEq] at h
        rw [<- h.1, popCacheLoop_length]
        simp
      . split at h
        . simp only [PopResult.ok.injEq] at h
          rw [<- h.1, popMemLoopF_length, popCacheLoop_length]
          simp
        . simp at h

end PopStackLemmas

section PushCommitLemmas

/-- Closed form of a sequence of pushes: the pushed values sit on top of
the old cache (most recent first) and the offset grows by the count. -/
theorem pushMany_spec (vs : List Variable) (b : BlockNode) :
    BlockNode.pushMany b vs =
      { b with stack := vs.reverse ++ b.stack,
               stack_top_offset := b.stack_top_offset + (vs.length : Int) } := by
  induction vs generalizing b with
  | nil => simp [BlockNode.pushMany]
  | cons v vs ih =>
      show BlockNode.pushMany (b.pushStack v) vs = _
      rw [ih]
      simp only [BlockNode.pushStack, BlockNode.mk.injEq, List.reverse_cons,
        List.length_cons]
      refine ⟨trivial, trivial, ?_, by simp [List.append_assoc]⟩
      push_cast
      ring

theorem getD_replicate_of_lt {α : Type} (n i : Nat) (a d : α) (h : i < n) :
    (List.replicate n a).getD i d = a := by
  rw [List.getD_eq_getElem?_getD,
    List.getElem?_eq_getElem (by simpa using h), List.getElem_replicate]
  rfl

/-- Reading back, through the committed memory image, the slot that
logically holds the `p`-th pushed value returns exactly that value. -/
theorem commit_push_mem (b : BlockNode) (vs : List Variable)
    (mem : Int -> Variable) (p : Nat) (hp : p < vs.length) :
    ((BlockNode.pushMany b vs).commitStack mem).2
        (b.stack_top_offset + (p : Int)) = vs.getD p Variable.uninit := by
  rw [pushMany_spec]
  simp only [BlockNode.commitStack]
  rw [if_pos (by constructor <;> (simp; omega))]
  have hidx : (b.stack_top_offset + ((vs.length : Nat) : Int) - 1
      - (b.stack_top_offset + (p : Int))).toNat = vs.length - 1 - p := by
    omega
  rw [hidx]
  have hlt : vs.length - 1 - p < vs.reverse.length := by
    simp
    omega
  rw [List.getD_eq_getElem?_getD, List.getElem?_append_left hlt,
    List.getElem?_reverse (by omega),
    show vs.length - 1 - (vs.length - 1 - p) = p from by omega,
    List.getElem?_eq_getElem hp]
  rw [List.getD_eq_getElem?_getD, List.getElem?_eq_getElem hp]

theorem map_range_getD (vs : List Variable) :
    (List.range vs.length).map (fun (p : Nat) => vs.getD p Variable.uninit)
      = vs := by
  apply List.ext_getElem (by simp)
  intro i h1 h2
  simp [List.getD_eq_getElem?_getD, List.getElem?_eq_getElem h2]

end PushCommitLemmas

section SampleStates

/-- A sample concrete `Variable` (used by the witnesses). -/
def sampleVar (n : Nat) : Variable := ⟨Operand.imm n, Operand.imm (n + 50)⟩

/-- A sample emission state. -/
def sampleEmit : EmitState := ⟨0, 0, []⟩

/-- A sample memory-resident stack: slot `j` holds a tagged value
recording the slot index. -/
def sampleMem : Int -> Variable :=
  fun j => ⟨Operand.imm (100 + j.toNat), Operand.imm 0⟩

/-- A sample block: one cached entry, offset 4 (three further values
committed at slots 1, 2, 3; `sampleMem` stands for that memory). -/
def sampleBlock : BlockNode := ⟨0, 7, 4, [sampleVar 3]⟩

/-- A sample compiler whose current block is `sampleBlock`. -/
def sampleCompiler : DMCompiler :=
  ⟨sampleEmit, Option.none, Option.some sampleBlock⟩

/-- A sample compiler with no current block. -/
def sampleNoBlock : DMCompiler := ⟨sampleEmit, Option.none, Option.none⟩

/-- Two sample Variables pushed by the round-trip witness. -/
def sampleVs : List Variable := [sampleVar 8, sampleVar 9]

/-- `sampleBlock` after pushing `sampleVs`. -/
def samplePushed : BlockNode := BlockNode.pushMany sampleBlock sampleVs

/-- `samplePushed` after a stack commit, with the updated memory image. -/
def sampleCommitted : BlockNode × (Int -> Variable) :=
  samplePushed.commitStack sampleMem

end SampleStates

section OffsetInvariant

/-- The running invariant of a Block Context: the cache never holds
more than `offset + 1` entries (in particular the offset never passes
below `-1`).  Every block state the layer itself can produce satisfies
it: see `reachableBlock_inv`. -/
def BlockInv (b : BlockNode) : Prop :=
  (b.stack.length : Int) <= b.stack_top_offset + 1

theorem blockInv_make (label : Nat) (st : EmitState) :
    BlockInv (BlockNode.make label st).1 := by
  show ((0 : Nat) : Int) <= 0 + 1
  omega

theorem blockInv_push (b : BlockNode) (v : Variable) (h : BlockInv b) :
    BlockInv (b.pushStack v) := by
  show (((v :: b.stack).length : Nat) : Int) <= b.stack_top_offset + 1 + 1
  have hb : (b.stack.length : Int) <= b.stack_top_offset + 1 := h
  simp only [List.length_cons]
  push_cast
  omega

theorem blockInv_commit (b : BlockNode) (mem : Int -> Variable)
    (h : BlockInv b) : BlockInv (b.commitStack mem).1 := by
  show ((([] : List Variable).length : Nat) : Int) <= b.stack_top_offset + 1
  have hb : (b.stack.length : Int) <= b.stack_top_offset + 1 := h
  simp only [List.length_nil]
  push_cast
  omega

/-- `popStack<I>` preserves the block invariant, on the normal return
and on the state it leaves behind at the underflow abort alike. -/
theorem blockInv_popStack (I : Nat) (mem : Int -> Variable)
    (c : DMCompiler) (b : BlockNode) (hb : c.currentBlock = Option.some b)
    (hinv : BlockInv b) (res : List Variable) (c1 : DMCompiler)
    (hout : DMCompiler.popStack I mem c = PopResult.ok res c1 ∨
            DMCompiler.popStack I mem c = PopResult.underflow c1)
    (b1 : BlockNode) (hb1 : c1.currentBlock = Option.some b1) :
    BlockInv b1 := by
  have hb0 : (b.stack.length : Int) <= b.stack_top_offset + 1 := hinv
  by_cases hI : I <= b.stack.length
  · have heq := popStack_cached I mem c b hb hI
    rcases hout with h | h
    · rw [heq] at h
      simp only [PopResult.ok.injEq] at h
      rw [<- h.2] at hb1
      simp only [Option.some.injEq] at hb1
      rw [<- hb1]
      show ((b.stack.drop I).length : Int) <= b.stack_top_offset - (I : Int) + 1
      simp only [List.length_drop]
      omega
    · rw [heq] at h
      simp at h
  · have hs : b.stack.length < I := by omega
    by_cases hg : ((I : Int) - 1) <= b.stack_top_offset - (b.stack.length : Int)
    · have heq := popStack_overpop I mem c b hb hs hg
      rcases hout with h | h
      · rw [heq] at h
        simp only [PopResult.ok.injEq] at h
        rw [<- h.2] at hb1
        simp only [Option.some.injEq] at hb1
        rw [<- hb1]
        show ((([] : List Variable).length : Nat) : Int)
          <= b.stack_top_offset - (I : Int) + 1
        simp only [List.length_nil]
        push_cast
        omega
      · rw [heq] at h
        simp at h
    · have hg2 : b.stack_top_offset - (b.stack.length : Int) < (I : Int) - 1 := by
        omega
      obtain ⟨st2, heq⟩ := popStack_underflow_spec I mem c b hb hs hg2
      rcases hout with h | h
      · rw [heq] at h
        simp at h
      · rw [heq] at h
        simp only [PopResult.underflow.injEq] at h
        rw [<- h] at hb1
        simp only [Option.some.injEq] at hb1
        rw [<- hb1]
        show ((([] : List Variable).length : Nat) : Int)
          <= b.stack_top_offset - (b.stack.length : Int) + 1
        simp only [List.length_nil]
        push_cast
        omega

/-- The block states producible by this layer's own operations:
a fresh block, or the current block after a push, a stack commit, or a
`popStack<I>` (normal return or underflow abort). -/
inductive ReachableBlock : BlockNode -> Prop where
  | fresh (label : Nat) (st : EmitState) :
      ReachableBlock (BlockNode.make label st).1
  | push (b : BlockNode) (v : Variable) :
      ReachableBlock b -> ReachableBlock (b.pushStack v)
  | commit (b : BlockNode) (mem : Int -> Variable) :
      ReachableBlock b -> ReachableBlock (b.commitStack mem).1
  | pop (I : Nat) (mem : Int -> Variable) (c : DMCompiler) (b : BlockNode)
      (res : List Variable) (c1 : DMCompiler) (b1 : BlockNode) :
      ReachableBlock b -> c.currentBlock = Option.some b ->
      (DMCompiler.popStack I mem c = PopResult.ok res c1 ∨
       DMCompiler.popStack I mem c = PopResult.underflow c1) ->
      c1.currentBlock = Option.some b1 -> ReachableBlock b1

/-- Every reachable block satisfies the invariant; in particular its
offset is at least `-1`, which is the hypothesis of the round-trip
claim. -/
theorem reachableBlock_inv (b : BlockNode) (h : ReachableBlock b) :
    BlockInv b := by
  induction h with
  | fresh label st => exact blockInv_make label st
  | push b v _ ih => exact blockInv_push b v ih
  | commit b mem _ ih => exact blockInv_commit b mem ih
  | pop I mem c b res c1 b1 _ hb hout hb1 ih =>
      exact blockInv_popStack I mem c b hb ih res c1 hout b1 hb1

theorem blockInv_offset (b : BlockNode) (h : BlockInv b) :
    (-1 : Int) <= b.stack_top_offset := by
  have hb : (b.stack.length : Int) <= b.stack_top_offset + 1 := h
  have : (0 : Int) <= (b.stack.length : Int) := by positivity
  omega

end OffsetInvariant

section Claims

/-- Claim C8: calling `popStack<I>` with no current Block Context
(`_currentBlock == nullptr`) hits `__debugbreak()` before any cache
state is touched: the call traps and produces no value and no state
change (modelled by the dedicated `nullBlock` outcome, which carries
nothing). -/
theorem c8_null_block_traps (I : Nat) (mem : Int -> Variable)
    (c : DMCompiler) (h : c.currentBlock = Option.none) :
    DMCompiler.popStack I mem c = PopResult.nullBlock := by
  simp [DMCompiler.popStack, h]

/-- Witness for C8: a concrete compiler with a null current block. -/
theorem c8_null_block_traps_witness :
    DMCompiler.popStack 2 sampleMem sampleNoBlock = PopResult.nullBlock :=
  c8_null_block_traps 2 sampleMem sampleNoBlock rfl

/-- Claim C10: `popStack<0>` succeeds trivially on every Block Context:
it returns the empty array, performs no memory reads, emits no
instructions, and leaves the whole compiler state (in particular the
block's cache and offset) unchanged. -/
theorem c10_pop_zero_noop (c : DMCompiler) (b : BlockNode)
    (mem : Int -> Variable) (hb : c.currentBlock = Option.some b) :
    DMCompiler.popStack 0 mem c = PopResult.ok [] c := by
  have h := popStack_cached 0 mem c b hb (Nat.zero_le _)
  rw [h]
  simp only [List.take_zero, List.reverse_nil, List.drop_zero, Nat.cast_zero,
    sub_zero]
  show PopResult.ok [] { c with currentBlock := Option.some b }
      = PopResult.ok [] c
  rw [<- hb]

/-- Witness for C10 at a concrete compiler state. -/
theorem c10_pop_zero_noop_witness :
    DMCompiler.popStack 0 sampleMem sampleCompiler
      = PopResult.ok [] sampleCompiler :=
  c10_pop_zero_noop sampleCompiler sampleBlock sampleMem rfl

/-- Claim C6: a Block Context fresh out of its constructor has an empty
stack cache and offset exactly zero, regardless of the rest of the
compiler state `c` — in particular regardless of anything a predecessor
block pushed (committed or not) and of the memory stack's height. -/
theorem c6_fresh_block_isolated (c : DMCompiler) (label : Nat) :
    (BlockNode.make label c.emit).1.stack = [] ∧
    (BlockNode.make label c.emit).1.stack_top_offset = 0 :=
  ⟨rfl, rfl⟩

/-- Claim C5: a freshly constructed Procedure Context has exactly `L`
local slots and `A` argument slots, every one of them in cache state
`Modified` and holding the null-typed Variable
`{Imm(DataType::NULL_D), Imm(0)}`. -/
theorem c5_fresh_proc_slots (L A : Nat) (st : EmitState) :
    (ProcNode.make L A st).1.locals.length = L ∧
    (ProcNode.make L A st).1.args.length = A ∧
    (∀ i, i < L ->
      (ProcNode.make L A st).1.locals.getD i ⟨CacheState.Ok, Variable.uninit⟩ =
        ⟨CacheState.Modified, ⟨Operand.imm NULL_D, Operand.imm 0⟩⟩) ∧
    (∀ j, j < A ->
      (ProcNode.make L A st).1.args.getD j ⟨CacheState.Ok, Variable.uninit⟩ =
        ⟨CacheState.Modified, ⟨Operand.imm NULL_D, Operand.imm 0⟩⟩) := by
  refine ⟨by simp [ProcNode.make], by simp [ProcNode.make], ?_, ?_⟩
  · intro i hi
    show (List.replicate L default_local).getD i _ = _
    rw [getD_replicate_of_lt L i default_local _ hi]
    rfl
  · intro j hj
    show (List.replicate A default_local).getD j _ = _
    rw [getD_replicate_of_lt A j default_local _ hj]
    rfl

/-- Witness for C5 with 2 locals and 1 argument, probing local 0. -/
theorem c5_fresh_proc_slots_witness :
    (ProcNode.make 2 1 sampleEmit).1.locals.getD 0
        ⟨CacheState.Ok, Variable.uninit⟩ =
      ⟨CacheState.Modified, ⟨Operand.imm NULL_D, Operand.imm 0⟩⟩ :=
  (c5_fresh_proc_slots 2 1 sampleEmit).2.2.1 0 (by decide)

/-- Claim C7: the zero-argument `popStack()` is the one-element special
case of `popStack<N>`: on every compiler state it returns exactly the
single Variable `popStack<1>` returns (the unique entry of its result
array) with the identical resulting compiler state, and agrees with
`popStack<1>` on the underflow and null-block outcomes as well. -/
theorem c7_pop_is_pop1 (mem : Int -> Variable) (c : DMCompiler) :
    (∀ res c1, DMCompiler.popStack 1 mem c = PopResult.ok res c1 ->
       ∃ v, res = [v] ∧
         DMCompiler.popStackOne mem c = PopResult1.ok v c1) ∧
    (∀ c1, DMCompiler.popStack 1 mem c = PopResult.underflow c1 ->
       DMCompiler.popStackOne mem c = PopResult1.underflow c1) ∧
    (DMCompiler.popStack 1 mem c = PopResult.nullBlock ->
       DMCompiler.popStackOne mem c = PopResult1.nullBlock) := by
  refine ⟨?_, ?_, ?_⟩
  · intro res c1 h
    have hl := popStack_ok_length 1 mem c res c1 h
    obtain ⟨v, rfl⟩ : ∃ v, res = [v] := by
      cases res with
      | nil => simp at hl
      | cons a t =>
          cases t with
          | nil => exact ⟨a, rfl⟩
          | cons d t2 => simp at hl
    exact ⟨v, rfl, by simp [DMCompiler.popStackOne, h]⟩
  · intro c1 h
    simp [DMCompiler.popStackOne, h]
  · intro h
    simp [DMCompiler.popStackOne, h]

/-- Witness for C7: on `sampleCompiler`, `popStack<1>` succeeds with the
single cached entry, and `popStack()` returns exactly it. -/
theorem c7_pop_is_pop1_witness :
    ∃ v, [sampleVar 3] = [v] ∧
      DMCompiler.popStackOne sampleMem sampleCompiler =
        PopResult1.ok v ⟨sampleEmit, Option.none, Option.some ⟨0, 7, 3, []⟩⟩ :=
  (c7_pop_is_pop1 sampleMem sampleCompiler).1 [sampleVar 3]
    ⟨sampleEmit, Option.none, Option.some ⟨0, 7, 3, []⟩⟩ (by decide)

/-- Claim C4: when the request exceeds the cache plus the memory slots
reachable under the non-negative-offset loop bound (with `s` cache
entries this means `stack_top_offset - s < N - 1`, i.e. the guard
`offset - popped_count >= 0` fails before `N` entries are obtained),
`popStack<N>` reaches `Core::Alert` + `abort()`: the outcome is the
fatal underflow exit and no (partial) result array is ever returned. -/
theorem c4_underflow_fatal (I : Nat) (mem : Int -> Variable)
    (c : DMCompiler) (b : BlockNode) (hb : c.currentBlock = Option.some b)
    (hs : b.stack.length < I)
    (hoff : b.stack_top_offset - (b.stack.length : Int) < (I : Int) - 1) :
    ∃ c1, DMCompiler.popStack I mem c = PopResult.underflow c1 := by
  obtain ⟨st2, h⟩ := popStack_underflow_spec I mem c b hb hs hoff
  exact ⟨_, h⟩

/-- Witness for C4: `pop<6>` on a block with one cached entry and
offset 4 underflows. -/
theorem c4_underflow_fatal_witness :
    ∃ c1, DMCompiler.popStack 6 sampleMem sampleCompiler
      = PopResult.underflow c1 :=
  c4_underflow_fatal 6 sampleMem sampleCompiler sampleBlock rfl
    (by decide) (by decide)

/-- Claim C9: the underflow abort of `popStack<N>` is not atomic: at the
abort the block's cache has already been fully drained and its offset
already decremented by the number of drained entries, so whenever the
cache was non-empty the block state observable at the abort differs
from the state at entry. -/
theorem c9_abort_not_atomic (I : Nat) (mem : Int -> Variable)
    (c : DMCompiler) (b : BlockNode) (hb : c.currentBlock = Option.some b)
    (hs : b.stack.length < I)
    (hoff : b.stack_top_offset - (b.stack.length : Int) < (I : Int) - 1) :
    ∃ c1, DMCompiler.popStack I mem c = PopResult.underflow c1 ∧
      c1.currentBlock = Option.some { b with
        stack := [],
        stack_top_offset := b.stack_top_offset - (b.stack.length : Int) } ∧
      (b.stack ≠ [] -> c1.currentBlock ≠ Option.some b) := by
  obtain ⟨st2, h⟩ := popStack_underflow_spec I mem c b hb hs hoff
  refine ⟨_, h, rfl, ?_⟩
  intro hne hcontra
  simp only [Option.some.injEq] at hcontra
  have hstack : ([] : List Variable) = b.stack := congrArg BlockNode.stack hcontra
  exact hne hstack.symm

/-- Witness for C9 at the concrete underflowing `pop<6>`. -/
theorem c9_abort_not_atomic_witness :
    ∃ c1, DMCompiler.popStack 6 sampleMem sampleCompiler
        = PopResult.underflow c1 ∧
      c1.currentBlock = Option.some { sampleBlock with
        stack := [],
        stack_top_offset :=
          sampleBlock.stack_top_offset - (sampleBlock.stack.length : Int) } ∧
      (sampleBlock.stack ≠ [] ->
        c1.currentBlock ≠ Option.some sampleBlock) :=
  c9_abort_not_atomic 6 sampleMem sampleCompiler sampleBlock rfl
    (by decide) (by decide)

/-- Claim C3: when the cache holds only `k < N` entries and the memory
fallback can cover the rest, `popStack<N>` returns the `k` cached
entries in the most-recent `k` result positions (they are
`b.stack.reverse`, i.e. in push order, at positions `N-k .. N-1`) and
the remaining `N-k` entries read from memory at positions `0 .. N-k-1`
in ascending slot order, the reads being emitted in strictly descending
address order (iteration `j` loads its type word at displacement
`(offset_after_drain - (k + j)) * 8 - 8`, strictly decreasing in `j`);
overall the returned array is ordered memory part then cache part, each
in push order. -/
theorem c3_overpop_placement (I : Nat) (mem : Int -> Variable)
    (c : DMCompiler) (b : BlockNode) (hb : c.currentBlock = Option.some b)
    (hs : b.stack.length < I)
    (hoff : ((I : Int) - 1) <= b.stack_top_offset - (b.stack.length : Int)) :
    ∃ c1,
      DMCompiler.popStack I mem c =
        PopResult.ok
          ((List.range (I - b.stack.length)).map
             (fun (p : Nat) => mem (b.stack_top_offset - (b.stack.length : Int)
               - (I : Int) + (p : Int))) ++ b.stack.reverse) c1 ∧
      c1.emit.instrs = c.emit.instrs ++ Instr.comment "popStack (overpopped)" ::
        overpopLoads b.stack_top (b.stack_top_offset - (b.stack.length : Int))
          c.emit.nextReg b.stack.length (I - b.stack.length) ∧
      (∀ j1 j2, j1 < j2 -> j2 < I - b.stack.length ->
        (b.stack_top_offset - (b.stack.length : Int)
          - ((b.stack.length + j2 : Nat) : Int)) * 8 - 8 <
        (b.stack_top_offset - (b.stack.length : Int)
          - ((b.stack.length + j1 : Nat) : Int)) * 8 - 8) := by
  refine ⟨_, popStack_overpop I mem c b hb hs hoff, rfl, ?_⟩
  intro j1 j2 h1 h2
  have h1c : (j1 : Int) < (j2 : Int) := by exact_mod_cast h1
  push_cast
  linarith

/-- Witness for C3: `pop<2>` on `sampleBlock` (one cached entry,
offset 4). -/
theorem c3_overpop_placement_witness :
    ∃ c1,
      DMCompiler.popStack 2 sampleMem sampleCompiler =
        PopResult.ok
          ((List.range (2 - sampleBlock.stack.length)).map
             (fun (p : Nat) => sampleMem (sampleBlock.stack_top_offset
               - (sampleBlock.stack.length : Int) - (2 : Int) + (p : Int))) ++
           sampleBlock.stack.reverse) c1 ∧
      c1.emit.instrs = sampleCompiler.emit.instrs ++
        Instr.comment "popStack (overpopped)" ::
        overpopLoads sampleBlock.stack_top
          (sampleBlock.stack_top_offset - (sampleBlock.stack.length : Int))
          sampleCompiler.emit.nextReg sampleBlock.stack.length
          (2 - sampleBlock.stack.length) ∧
      (∀ j1 j2, j1 < j2 -> j2 < 2 - sampleBlock.stack.length ->
        (sampleBlock.stack_top_offset - (sampleBlock.stack.length : Int)
          - ((sampleBlock.stack.length + j2 : Nat) : Int)) * 8 - 8 <
        (sampleBlock.stack_top_offset - (sampleBlock.stack.length : Int)
          - ((sampleBlock.stack.length + j1 : Nat) : Int)) * 8 - 8) :=
  c3_overpop_placement 2 sampleMem sampleCompiler sampleBlock rfl
    (by decide) (by decide)

/-- Claim C2 (round trip): pushing `v1..vn` on any block whose offset
satisfies the layer's running invariant `offset >= -1` (every reachable
block does, by `reachableBlock_inv` and `blockInv_offset` above) and
then immediately popping `n` returns exactly
`[v1..vn]` in push order — both when the pop is served from the cache
(no commit) and when a `commitStack` (spec-modelled) intervenes between
the pushes and the pop, so that the pop is served from memory. -/
theorem c2_round_trip (c : DMCompiler) (b : BlockNode) (vs : List Variable)
    (mem : Int -> Variable) (hoff : (-1 : Int) <= b.stack_top_offset) :
    (∃ c1, DMCompiler.popStack vs.length mem
        { c with currentBlock := Option.some (BlockNode.pushMany b vs) } =
        PopResult.ok vs c1) ∧
    (∃ c2, DMCompiler.popStack vs.length
        ((BlockNode.pushMany b vs).commitStack mem).2
        { c with currentBlock :=
            Option.some ((BlockNode.pushMany b vs).commitStack mem).1 } =
        PopResult.ok vs c2) := by
  have hpush := pushMany_spec vs b
  constructor
  · have hlen : vs.length <= (BlockNode.pushMany b vs).stack.length := by
      rw [hpush]
      simp
    have h := popStack_cached vs.length mem
      { c with currentBlock := Option.some (BlockNode.pushMany b vs) }
      (BlockNode.pushMany b vs) rfl hlen
    have hres : ((BlockNode.pushMany b vs).stack.take vs.length).reverse
        = vs := by
      rw [hpush]
      show ((vs.reverse ++ b.stack).take vs.length).reverse = vs
      rw [List.take_left' (by simp), List.reverse_reverse]
    rw [hres] at h
    exact ⟨_, h⟩
  · rcases Nat.eq_zero_or_pos vs.length with hn | hn
    · have hvs : vs = [] := List.length_eq_zero.mp hn
      subst hvs
      have h := popStack_cached 0
        ((BlockNode.pushMany b []).commitStack mem).2
        { c with currentBlock :=
            Option.some ((BlockNode.pushMany b []).commitStack mem).1 }
        ((BlockNode.pushMany b []).commitStack mem).1 rfl (Nat.zero_le _)
      rw [List.take_zero, List.reverse_nil] at h
      exact ⟨_, h⟩
    · have hCstack : ((BlockNode.pushMany b vs).commitStack mem).1.stack
          = [] := rfl
      have hCoff : ((BlockNode.pushMany b vs).commitStack mem).1.stack_top_offset
          = b.stack_top_offset + (vs.length : Int) := by
        show (BlockNode.pushMany b vs).stack_top_offset = _
        rw [hpush]
      have hs : ((BlockNode.pushMany b vs).commitStack mem).1.stack.length
          < vs.length := by
        rw [hCstack]
        simpa using hn
      have hoff2 : ((vs.length : Int) - 1) <=
          ((BlockNode.pushMany b vs).commitStack mem).1.stack_top_offset
            - (((BlockNode.pushMany b vs).commitStack mem).1.stack.length : Int) := by
        rw [hCstack, hCoff]
        simp
        omega
      have h := popStack_overpop vs.length
        ((BlockNode.pushMany b vs).commitStack mem).2
        { c with currentBlock :=
            Option.some ((BlockNode.pushMany b vs).commitStack mem).1 }
        ((BlockNode.pushMany b vs).commitStack mem).1 rfl hs hoff2
      have hres :
          (List.range (vs.length
              - ((BlockNode.pushMany b vs).commitStack mem).1.stack.length)).map
            (fun (p : Nat) => ((BlockNode.pushMany b vs).commitStack mem).2
              (((BlockNode.pushMany b vs).commitStack mem).1.stack_top_offset
                - (((BlockNode.pushMany b vs).commitStack mem).1.stack.length : Int)
                - (vs.length : Int) + (p : Int))) ++
            ((BlockNode.pushMany b vs).commitStack mem).1.stack.reverse = vs := by
        rw [hCstack, hCoff]
        simp only [List.length_nil, Nat.sub_zero, Nat.cast_zero, sub_zero,
          List.reverse_nil, List.append_nil]
        have hcong : ∀ p ∈ List.range vs.length,
            ((BlockNode.pushMany b vs).commitStack mem).2
              (b.stack_top_offset + (vs.length : Int) - (vs.length : Int)
                + (p : Int)) = vs.getD p Variable.uninit := by
          intro p hp
          rw [List.mem_range] at hp
          rw [show b.stack_top_offset + (vs.length : Int) - (vs.length : Int)
              + (p : Int) = b.stack_top_offset + (p : Int) from by ring]
          exact commit_push_mem b vs mem p hp
        rw [List.map_congr_left hcong, map_range_getD]
      rw [hres] at h
      exact ⟨_, h⟩

/-- Witness for C2: pushing two concrete Variables on `sampleBlock` and
popping 2 returns them in push order, with and without a commit. -/
theorem c2_round_trip_witness :
    (∃ c1, DMCompiler.popStack sampleVs.length sampleMem
        { sampleCompiler with currentBlock := Option.some samplePushed } =
        PopResult.ok sampleVs c1) ∧
    (∃ c2, DMCompiler.popStack sampleVs.length sampleCommitted.2
        { sampleCompiler with currentBlock := Option.some sampleCommitted.1 } =
        PopResult.ok sampleVs c2) :=
  c2_round_trip sampleCompiler sampleBlock sampleVs sampleMem (by decide)

/-- Claim C1, evaluated at a failing input (code bug): on a block with
one cached entry and `stack_top_offset = 4`, `popStack<2>` drains the
cached entry (decrementing the offset to 3) and then emits its fallback
type-word load at byte displacement `(3 - 1) * 8 - 8 = 8`, i.e. slot 1
— the already-decremented offset is used while `popped_count` also
continues from the drained count, double-counting the drain.  The
claim's formula `(offset_before_any_cache_drain - i - 1) * sizeof(Value)
= (4 - 1 - 1) * 8 = 16` (slot 2) is the address that would return the
value pushed just below the cached entry; 8 ≠ 16.  (The offset does
drop by exactly `N = 2` in total, to 2, as the claim also states.) -/
theorem c1_address_uses_drained_offset :
    (DMCompiler.popStack 2 sampleMem sampleCompiler =
      PopResult.ok
        [⟨Operand.imm 101, Operand.imm 0⟩, sampleVar 3]
        ⟨⟨2, 0, [Instr.comment "popStack (overpopped)",
                 Instr.movLoad 0 7 8, Instr.movLoad 1 7 12]⟩,
         Option.none, Option.some ⟨0, 7, 2, []⟩⟩) ∧
    (8 : Int) = ((4 - 1) - 1 - 1) * 8 ∧ ¬((8 : Int) = (4 - 1 - 1) * 8) :=
  ⟨by decide, by decide, by decide⟩

end Claims

end DmJit
